import Mathlib
/-!
Verification development for the host-side cryptographic toolchain
(design3): global secrets bundle, KDF tree, range-to-cover algorithm,
subscription builder and frame encoder.

Byte strings are modelled as `List Nat` (each entry one byte).  The
external crypto library (monocypher) is modelled as an abstract record
of primitives; theorems that need the primitives' length guarantees
take them as a `Monocypher.WF` hypothesis.  A Python `assert` or
raised exception is modelled as `Option.none`; struct packing follows
the semantics of the `struct` module (fixed-size `s` fields are
silently truncated or zero-padded, integer fields raise when out of
range).
-/

/-! ### Byte-string helpers (struct packing primitives) -/

/-- Pack a byte string into a fixed-width field: truncate to `w` bytes,
then right-pad with zeros (semantics of a fixed-size field of the
Python struct module, e.g. format code 2016s). -/
def padTrunc (w : Nat) (b : List Nat) : List Nat :=
  b.take w ++ List.replicate (w - b.length) 0

/-- Little-endian integer field of `w` bytes (struct codes I and Q). -/
def leBytes : Nat → Nat → List Nat
  | 0, _ => []
  | w + 1, n => n % 256 :: leBytes w (n / 256)

/-! ### Base64 (gen_secrets.py to_base64 / from_base64), over ASCII codes -/

/-- The base64 alphabet, as ASCII codes. -/
def b64chr (i : Nat) : Nat :=
  if i < 26 then 65 + i
  else if i < 52 then 97 + (i - 26)
  else if i < 62 then 48 + (i - 52)
  else if i = 62 then 43
  else 47

/-- Inverse of the base64 alphabet on ASCII codes. -/
def b64dec (c : Nat) : Nat :=
  if 65 ≤ c ∧ c ≤ 90 then c - 65
  else if 97 ≤ c ∧ c ≤ 122 then c - 71
  else if 48 ≤ c ∧ c ≤ 57 then c + 4
  else if c = 43 then 62
  else 63

/-- Standard base64 encoding of a byte string (ASCII `=` = 61 as padding). -/
def b64encode : List Nat → List Nat
  | [] => []
  | [a] => [b64chr (a / 4), b64chr (a % 4 * 16), 61, 61]
  | [a, b] => [b64chr (a / 4), b64chr (a % 4 * 16 + b / 16), b64chr (b % 16 * 4), 61]
  | a :: b :: c :: rest =>
      b64chr (a / 4) :: b64chr (a % 4 * 16 + b / 16) ::
      b64chr (b % 16 * 4 + c / 64) :: b64chr (c % 64) :: b64encode rest

/-- Base64 decoding; total, returning junk on malformed input (the Python
binascii exception paths are not exercised by any theorem below, which
only decode images of `b64encode`). -/
def b64decode : List Nat → List Nat
  | x0 :: x1 :: x2 :: x3 :: rest =>
      if x2 = 61 then [b64dec x0 * 4 + b64dec x1 / 16]
      else if x3 = 61 then
        [b64dec x0 * 4 + b64dec x1 / 16, b64dec x1 % 16 * 16 + b64dec x2 / 4]
      else
        (b64dec x0 * 4 + b64dec x1 / 16) :: (b64dec x1 % 16 * 16 + b64dec x2 / 4) ::
        (b64dec x2 % 4 * 64 + b64dec x3) :: b64decode rest
  | _ => []

/-! ### Decimal strings (JSON object keys for the per-channel maps) -/

/-- Decimal digits of `n`, least significant first. -/
def digitsLE (n : Nat) : List Nat :=
  if n < 10 then [n] else n % 10 :: digitsLE (n / 10)
termination_by n
decreasing_by omega

/-- Decimal representation of `n` as ASCII codes (Python str(n)). -/
def natRepr (n : Nat) : List Nat :=
  (digitsLE n).reverse.map (fun d => d + 48)

/-- Parse a decimal ASCII string (Python int(s), on well-formed input). -/
def parseDec (s : List Nat) : Nat :=
  s.foldl (fun acc c => acc * 10 + (c - 48)) 0

/-! ### The external crypto library (monocypher), abstracted

The repository calls monocypher for Blake2b, XChaCha20-Poly1305 lock
and Ed25519-style signing; the library itself is outside the sources,
so its primitives are abstract functions.  `Monocypher.WF` records the
output-length guarantees the wrappers' own assertions rely on. -/

structure Monocypher where
  blake2b : List Nat → Nat → List Nat
  lock : List Nat → List Nat → List Nat → List Nat × List Nat
  signature_sign : List Nat → List Nat → List Nat

def Monocypher.WF (m : Monocypher) : Prop :=
  (∀ msg n, (m.blake2b msg n).length = n) ∧
  (∀ key nonce pt, (m.lock key nonce pt).1.length = 16 ∧
    (m.lock key nonce pt).2.length = pt.length) ∧
  (∀ sk msg, (m.signature_sign sk msg).length = 64)

/-- A trivial instantiation of the primitives, used to evaluate the
length-level theorems on concrete inputs. -/
def zeroCrypto : Monocypher where
  blake2b := fun _ n => List.replicate n 0
  lock := fun _ _ pt => (List.replicate 16 0, pt)
  signature_sign := fun _ _ => List.replicate 64 0

/-! ### crypto_wrappers.py -/

def SYMMETRIC_KEY_LEN : Nat := 32

def SYMMETRIC_NONCE_LEN : Nat := 24

def SYMMETRIC_MAC_LEN : Nat := 16

def SYMMETRIC_METADATA_LEN : Nat := SYMMETRIC_NONCE_LEN + SYMMETRIC_MAC_LEN

def TREE_KEY_LEN : Nat := 16

def TREE_LEFT_RIGHT_LEN : Nat := 32

def PUBLIC_KEY_LEN : Nat := 64

def PRIVATE_KEY_LEN : Nat := 64

def SIGNATURE_LEN : Nat := 64

/-- encrypt_symmetric: the fresh 24-byte nonce the source draws from the
CSPRNG is passed in explicitly; returns mac then nonce then ct. -/
def encrypt_symmetric (m : Monocypher) (nonce plaintext sym_key : List Nat) :
    Option (List Nat) :=
  if sym_key.length = SYMMETRIC_KEY_LEN then
    let mc := m.lock sym_key nonce plaintext
    let ciphertext := mc.1 ++ nonce ++ mc.2
    if ciphertext.length = plaintext.length + SYMMETRIC_METADATA_LEN then some ciphertext
    else none
  else none

def sign_asymmetric (m : Monocypher) (message secret_key : List Nat) :
    Option (List Nat) :=
  if secret_key.length = PRIVATE_KEY_LEN then
    let out := m.signature_sign secret_key message
    if out.length = SIGNATURE_LEN then some out else none
  else none

def hash_length (m : Monocypher) (message : List Nat) (hash_size : Nat) :
    Option (List Nat) :=
  let h := m.blake2b message hash_size
  if h.length = hash_size then some h else none

/-- TreeChildTmp.pack: a 16-byte field followed by a 32-byte field. -/
def packTreeChildTmp (parent left_right : List Nat) : List Nat :=
  padTrunc TREE_KEY_LEN parent ++ padTrunc TREE_LEFT_RIGHT_LEN left_right

def kdf_tree_child (m : Monocypher) (parent_key left_right : List Nat) :
    Option (List Nat) :=
  if parent_key.length = TREE_KEY_LEN ∧ left_right.length = TREE_LEFT_RIGHT_LEN then
    (hash_length m (packTreeChildTmp parent_key left_right) TREE_KEY_LEN).bind
      (fun child_key => if child_key.length = TREE_KEY_LEN then some child_key else none)
  else none

def kdf_tree_leaf (m : Monocypher) (leaf_key : List Nat) : Option (List Nat) :=
  if leaf_key.length = TREE_KEY_LEN then
    (hash_length m leaf_key SYMMETRIC_KEY_LEN).bind
      (fun frame_key => if frame_key.length = SYMMETRIC_KEY_LEN then some frame_key else none)
  else none

/-- kdf_id: hash of pack of format I32s, i.e. the little-endian u32 id
followed by the 32-byte root key. -/
def kdf_id (m : Monocypher) (id_root_key : List Nat) (decoder_id : Nat) :
    Option (List Nat) :=
  if id_root_key.length = SYMMETRIC_KEY_LEN ∧ decoder_id < 2 ^ 32 then
    (hash_length m (leBytes 4 decoder_id ++ padTrunc 32 id_root_key) SYMMETRIC_KEY_LEN).bind
      (fun key => if key.length = SYMMETRIC_KEY_LEN then some key else none)
  else none

def kdf_symbol_shimmy (m : Monocypher) (shimmy_root_key : List Nat) (decoder_id : Nat) :
    Option (List Nat) :=
  kdf_id m shimmy_root_key decoder_id

/-! ### gen_secrets.py: data model -/

/-- A node of the timestamp tree.  The source's constructor assertion
0 ≤ prefix < 2 ^ bits is modelled at each construction site. -/
structure Vertex where
  pfx : Nat
  bits : Nat
deriving Repr, DecidableEq

structure GlobalSecrets where
  enc_private_key : List Nat
  enc_public_key : List Nat
  id_root_key : List Nat
  channel_keys : List (Nat × List Nat)
  left_tree_key : List Nat
  right_tree_key : List Nat
  tree_root_keys : List (Nat × List Nat)
  symbol_shimmy_root_key : List Nat
deriving Repr, DecidableEq

/-! Python dict operations for the two per-channel maps, modelled as
association lists with unique keys in insertion order. -/

def dictGet (d : List (Nat × List Nat)) (k : Nat) : Option (List Nat) :=
  (d.find? (fun p => p.1 == k)).map (fun p => p.2)

def dictInsert (d : List (Nat × List Nat)) (k : Nat) (v : List Nat) :
    List (Nat × List Nat) :=
  if d.any (fun p => p.1 == k) then
    d.map (fun p => if p.1 == k then (p.1, v) else p)
  else d ++ [(k, v)]

/-- A dict comprehension drawing a fresh value for every iteration:
the i-th iteration inserts key ks(i) with value gen(i). -/
def dictComp (gen : Nat → List Nat) : Nat → List (Nat × List Nat) → List Nat →
    List (Nat × List Nat)
  | _, d, [] => d
  | i, d, ch :: rest => dictComp gen (i + 1) (dictInsert d ch (gen i)) rest

/-- GlobalSecrets.generate.  The CSPRNG draws are passed in explicitly:
`keypair` for generate_signing_key_pair, `rngChannel i` / `rngTree i`
for the i-th draw of the two dict comprehensions, and one named draw
for each remaining scalar key. -/
def GlobalSecrets.generate (channels : List Nat) (keypair : List Nat × List Nat)
    (rngChannel rngTree : Nat → List Nat)
    (rngIdRoot rngLeft rngRight rngShimmy : List Nat) : GlobalSecrets where
  enc_private_key := keypair.1
  enc_public_key := keypair.2
  id_root_key := rngIdRoot
  channel_keys := dictComp rngChannel 0 [] (channels ++ [0])
  left_tree_key := rngLeft
  right_tree_key := rngRight
  tree_root_keys := dictComp rngTree 0 [] (channels ++ [0])
  symbol_shimmy_root_key := rngShimmy

/-- The JSON object written by GlobalSecrets.serialize: eight fixed
fields; scalar values are base64 strings, the two maps have decimal
string keys and base64 string values.  Strings are ASCII code lists;
the json.dumps/json.loads pair is modelled as the identity on this
abstract syntax. -/
structure SecretsJson where
  ENCODER_PRIVATE_KEY : List Nat
  ENCODER_PUBLIC_KEY : List Nat
  ID_ROOT_KEY : List Nat
  CHANNEL_KEYS : List (List Nat × List Nat)
  LEFT_TREE_KEY : List Nat
  RIGHT_TREE_KEY : List Nat
  TREE_ROOT_KEYS : List (List Nat × List Nat)
  SYMBOL_SHIMMY_ROOT_KEY : List Nat
deriving Repr, DecidableEq

def GlobalSecrets.serialize (s : GlobalSecrets) : SecretsJson where
  ENCODER_PRIVATE_KEY := b64encode s.enc_private_key
  ENCODER_PUBLIC_KEY := b64encode s.enc_public_key
  ID_ROOT_KEY := b64encode s.id_root_key
  CHANNEL_KEYS := s.channel_keys.map (fun p => (natRepr p.1, b64encode p.2))
  LEFT_TREE_KEY := b64encode s.left_tree_key
  RIGHT_TREE_KEY := b64encode s.right_tree_key
  TREE_ROOT_KEYS := s.tree_root_keys.map (fun p => (natRepr p.1, b64encode p.2))
  SYMBOL_SHIMMY_ROOT_KEY := b64encode s.symbol_shimmy_root_key

def GlobalSecrets.deserialize (j : SecretsJson) : GlobalSecrets where
  enc_private_key := b64decode j.ENCODER_PRIVATE_KEY
  enc_public_key := b64decode j.ENCODER_PUBLIC_KEY
  id_root_key := b64decode j.ID_ROOT_KEY
  channel_keys := j.CHANNEL_KEYS.map (fun p => (parseDec p.1, b64decode p.2))
  left_tree_key := b64decode j.LEFT_TREE_KEY
  right_tree_key := b64decode j.RIGHT_TREE_KEY
  tree_root_keys := j.TREE_ROOT_KEYS.map (fun p => (parseDec p.1, b64decode p.2))
  symbol_shimmy_root_key := b64decode j.SYMBOL_SHIMMY_ROOT_KEY

def GlobalSecrets.derive_id_key (m : Monocypher) (s : GlobalSecrets)
    (device_id : Nat) : Option (List Nat) :=
  if device_id < 2 ^ 32 then kdf_id m s.id_root_key device_id else none

/-- The descent loop of derive_tree_key: iterates `bits` times with
bitmask 1 <<< (bits-1) halving each round; argument `i` is the number
of remaining rounds, so the current bitmask is 1 <<< (i-1). -/
def treeDescend (m : Monocypher) (left_tree_key right_tree_key : List Nat) :
    List Nat → Nat → Nat → Option (List Nat)
  | key, _, 0 => some key
  | key, pfx, i + 1 =>
      (kdf_tree_child m key
        (if pfx &&& (1 <<< i) = 0 then left_tree_key else right_tree_key)).bind
        (fun key2 => treeDescend m left_tree_key right_tree_key key2 pfx i)

def GlobalSecrets.derive_tree_key (m : Monocypher) (s : GlobalSecrets)
    (ch : Nat) (v : Vertex) : Option (List Nat) :=
  if ch < 2 ^ 32 ∧ v.pfx < 2 ^ v.bits then
    (dictGet s.tree_root_keys ch).bind fun root_key =>
      if v.bits = 0 then some root_key
      else treeDescend m s.left_tree_key s.right_tree_key root_key v.pfx v.bits
  else none

def GlobalSecrets.symbol_shimmy_seed (m : Monocypher) (s : GlobalSecrets)
    (id : Nat) : Option (List Nat) :=
  kdf_symbol_shimmy m s.symbol_shimmy_root_key id

/-! ### gen_subscription.py -/

def SUBSCRIPTION_MAGIC : Nat := 0x41594E42

def MAX_TREE_KEYS : Nat := 126

/-- ValidSubscription.pack: format 2016s 32s Q Q I I I 4s (2080 bytes).
String fields are truncated or zero-padded; integer fields raise
(none) when out of range. -/
def packValidSubscription (ktree kch : List Nat) (start endTs channel key_count magic : Nat)
    (pad : List Nat) : Option (List Nat) :=
  if start < 2 ^ 64 ∧ endTs < 2 ^ 64 ∧ channel < 2 ^ 32 ∧ key_count < 2 ^ 32 ∧
      magic < 2 ^ 32 then
    some (padTrunc (MAX_TREE_KEYS * TREE_KEY_LEN) ktree ++ padTrunc SYMMETRIC_KEY_LEN kch ++
      leBytes 8 start ++ leBytes 8 endTs ++ leBytes 4 channel ++ leBytes 4 key_count ++
      leBytes 4 magic ++ padTrunc 4 pad)
  else none

/-- SubscriptionUpdatePayload.pack: format I 2120s (2124 bytes). -/
def packSubscriptionUpdatePayload (id : Nat) (ciphertext : List Nat) : Option (List Nat) :=
  if id < 2 ^ 32 then
    some (leBytes 4 id ++ padTrunc (SYMMETRIC_METADATA_LEN + 2080) ciphertext)
  else none

/-- SubscriptionUpdate.pack: format 2124s 64s (2188 bytes). -/
def packSubscriptionUpdate (payload sig : List Nat) : List Nat :=
  padTrunc 2124 payload ++ padTrunc SIGNATURE_LEN sig

/-- The while loop of vertices_for_range, with the two accumulator
lists.  The loop's assertion start < end is the none branch; the
Vertex constructor assertion prefix < 2 ^ bits guards each emission. -/
def verticesLoop (s e bits : Nat) (keys_front keys_back : List Vertex) :
    Option (List Vertex) :=
  if s = e then
    if s < 2 ^ bits then some (keys_front ++ ⟨s, bits⟩ :: keys_back.reverse) else none
  else if s < e then
    if s % 2 = 0 ∧ e % 2 = 1 then
      verticesLoop (s / 2) (e / 2) (bits - 1) keys_front keys_back
    else if s % 2 = 1 then
      if s < 2 ^ bits then
        verticesLoop (s + 1) e bits (keys_front ++ [⟨s, bits⟩]) keys_back
      else none
    else
      if e < 2 ^ bits then
        verticesLoop s (e - 1) bits keys_front (keys_back ++ [⟨e, bits⟩])
      else none
  else none
termination_by e - s
decreasing_by
  · omega
  · omega
  · omega

def vertices_for_range (start endTs : Nat) : Option (List Vertex) :=
  verticesLoop start endTs 64 [] []

/-- The ktree accumulation loop of gen_embeddable_subscription:
concatenates derive_tree_key over the cover, in order. -/
def treeKeysConcat (m : Monocypher) (secrets : GlobalSecrets) (channel : Nat) :
    List Vertex → Option (List Nat)
  | [] => some []
  | v :: rest =>
      (secrets.derive_tree_key m channel v).bind fun k =>
      (treeKeysConcat m secrets channel rest).map fun ks => k ++ ks

/-- gen_embeddable_subscription.  The source deserializes its secrets
bytes first; here the deserialized GlobalSecrets is the argument and
the JSON layer is modelled by serialize/deserialize separately.  The
device_id parameter is accepted and, as in the source, never used. -/
def gen_embeddable_subscription (m : Monocypher) (secrets : GlobalSecrets)
    (device_id start endTs channel : Nat) : Option (List Nat) :=
  (dictGet secrets.channel_keys channel).bind fun kch =>
  (vertices_for_range start endTs).bind fun vertices =>
  (treeKeysConcat m secrets channel vertices).bind fun ktree =>
  if ktree.length = vertices.length * TREE_KEY_LEN then
    packValidSubscription ktree kch start endTs channel vertices.length SUBSCRIPTION_MAGIC []
  else none

/-- gen_subscription; `nonce` is the 24-byte CSPRNG draw made inside
encrypt_symmetric. -/
def gen_subscription (m : Monocypher) (secrets : GlobalSecrets) (nonce : List Nat)
    (device_id start endTs channel : Nat) : Option (List Nat) :=
  (gen_embeddable_subscription m secrets device_id start endTs channel).bind
    fun valid_subscription =>
  (secrets.derive_id_key m device_id).bind fun kid =>
  (encrypt_symmetric m nonce valid_subscription kid).bind fun encrypted_subscription =>
  (packSubscriptionUpdatePayload device_id encrypted_subscription).bind
    fun subscription_to_sign =>
  (sign_asymmetric m subscription_to_sign secrets.enc_private_key).bind fun ke_sig =>
  some (packSubscriptionUpdate subscription_to_sign ke_sig)

/-! ### encoder.py (design3) -/

def MAX_FRAME_SIZE : Nat := 64

/-- FrameData.pack: format I 64s (68 bytes). -/
def packFrameData (length : Nat) (frame : List Nat) : Option (List Nat) :=
  if length < 2 ^ 32 then some (leBytes 4 length ++ padTrunc MAX_FRAME_SIZE frame)
  else none

/-- FrameCh.pack: format Q 108s 4s (120 bytes). -/
def packFrameCh (timestamp : Nat) (ciphertext padding : List Nat) : Option (List Nat) :=
  if timestamp < 2 ^ 64 then
    some (leBytes 8 timestamp ++ padTrunc (SYMMETRIC_METADATA_LEN + 68) ciphertext ++
      padTrunc 4 padding)
  else none

/-- FramePacketPayload.pack: format I 160s (164 bytes). -/
def packFramePacketPayload (channel_id : Nat) (enc_frame : List Nat) : Option (List Nat) :=
  if channel_id < 2 ^ 32 then
    some (leBytes 4 channel_id ++ padTrunc (SYMMETRIC_METADATA_LEN + 120) enc_frame)
  else none

/-- FramePacket.pack: format 164s 64s (228 bytes). -/
def packFramePacket (payload signature : List Nat) : List Nat :=
  padTrunc 164 payload ++ padTrunc SIGNATURE_LEN signature

/-- Encoder.encode.  An unknown channel logs an error and returns the
empty byte string; every other failure (an assertion in a callee) is
none.  The two fresh nonces drawn inside the two encrypt_symmetric
calls are passed in explicitly. -/
def Encoder.encode (m : Monocypher) (keys : GlobalSecrets)
    (nonceFrame nonceCh : List Nat) (channel : Nat) (frame : List Nat)
    (timestamp : Nat) : Option (List Nat) :=
  match dictGet keys.channel_keys channel with
  | none => some []
  | some kch =>
      (packFrameData frame.length frame).bind fun frame_data =>
      if timestamp < 2 ^ 64 then
        (keys.derive_tree_key m channel ⟨timestamp, 64⟩).bind fun tree_key =>
        (kdf_tree_leaf m tree_key).bind fun ktree =>
        (encrypt_symmetric m nonceFrame frame_data ktree).bind fun enc_frame =>
        (packFrameCh timestamp enc_frame []).bind fun timestamped_frame =>
        (encrypt_symmetric m nonceCh timestamped_frame kch).bind fun enc_timestamp =>
        (packFramePacketPayload channel enc_timestamp).bind fun ch_enc_timestamp =>
        (sign_asymmetric m ch_enc_timestamp keys.enc_private_key).bind fun signature =>
        some (packFramePacket ch_enc_timestamp signature)
      else none

/-! ### Theory of the range-to-cover algorithm

`vfrCore` is the recursion underlying the while loop of
vertices_for_range, without the accumulator lists: the front emission
becomes a cons, the back emission an append, and the middle vertex the
base case.  `verticesLoop_eq_core` relates it to the loop. -/

def vfrCore (s e b : Nat) : List Vertex :=
  if s = e then [⟨s, b⟩]
  else if s < e then
    if s % 2 = 0 ∧ e % 2 = 1 then vfrCore (s / 2) (e / 2) (b - 1)
    else if s % 2 = 1 then ⟨s, b⟩ :: vfrCore (s + 1) e b
    else vfrCore s (e - 1) b ++ [⟨e, b⟩]
  else []
termination_by e - s
decreasing_by
  · omega
  · omega
  · omega

/-! The timestamps covered by a vertex, measured at tree height 64:
`⟨p, b⟩` covers the closed interval of width 2 ^ (64 - b) starting at
p * 2 ^ (64 - b). -/

def coveredLo (v : Vertex) : Nat := v.pfx * 2 ^ (64 - v.bits)

def coveredHi (v : Vertex) : Nat := coveredLo v + 2 ^ (64 - v.bits) - 1

/-- `VChain lo l hi`: the vertices of `l`, in order, tile the closed
interval of timestamps from lo to hi exactly and contiguously. -/
def VChain : Nat → List Vertex → Nat → Prop
  | lo, [], hi => lo = hi + 1
  | lo, v :: l, hi => coveredLo v = lo ∧ VChain (coveredHi v + 1) l hi

/-! Length bounds.  `vfrCore_length_le` is the parity-refined bound
that yields the 127 limit at height 64; `vfrCore_length_le_tight` is
the sharper four-class bound that yields 126, showing that the
126-slot ktree field can never overflow. -/

def lenBound (s e b : Nat) : Nat :=
  if s = e then 1 else max 1 (2 * b - 1 - (1 - s % 2) - e % 2)

def lenBoundT (s e b : Nat) : Nat :=
  if s = e then 1
  else if s % 2 = 0 ∧ e % 2 = 1 then max 1 (2 * b - 4)
  else if s % 2 = 1 ∧ e % 2 = 0 then max 2 (2 * b - 2)
  else max 2 (2 * b - 3)

/-- Two adjacent vertices can be merged into a single vertex one level
up exactly when they are the 0-child and 1-child of the same parent. -/
def Mergeable (a c : Vertex) : Prop :=
  a.bits = c.bits ∧ 0 < a.bits ∧ a.pfx % 2 = 0 ∧ c.pfx = a.pfx + 1

/-- The full correctness property of the cover: the vertices are valid,
pairwise disjoint and ordered front-to-back over the timeline, their
subtrees cover exactly the closed interval, there are at most 127 of
them, and no two adjacent ones are mergeable. -/
def CoverOK (start endTs : Nat) : Prop :=
  ∃ l, vertices_for_range start endTs = some l ∧
    (∀ v ∈ l, v.pfx < 2 ^ v.bits ∧ v.bits ≤ 64) ∧
    l.Pairwise (fun a c => coveredHi a < coveredLo c) ∧
    (∀ t, (start ≤ t ∧ t ≤ endTs) ↔ ∃ v ∈ l, coveredLo v ≤ t ∧ t ≤ coveredHi v) ∧
    l.length ≤ 127 ∧
    List.Chain' (fun a c => ¬ Mergeable a c) l

/-! ### The KDF tree walk, as the specification words it

The spec describes derive_tree_key as a fold of the child step over
the `bits` most-significant bits of the prefix, MSB first; these
definitions follow that wording and are compared with the source's
bitmask loop. -/

/-- The bits of `pfx` at positions bits-1 … 0, most significant first. -/
def msbBits (pfx : Nat) : Nat → List Bool
  | 0 => []
  | i + 1 => pfx.testBit i :: msbBits pfx i

/-- Child step as the spec words it: Blake2b-16 of the 16-byte parent
key followed by the 32-byte direction key, right for a 1 bit and left
for a 0 bit. -/
def specChildStep (m : Monocypher) (left right : List Nat) (k : List Nat) (b : Bool) :
    List Nat :=
  m.blake2b (k ++ (if b then right else left)) TREE_KEY_LEN

/-- Full descent as the spec words it: fold the child step over the
MSB-first bit list, starting from the channel root. -/
def specDeriveTreeKey (m : Monocypher) (left right root : List Nat) (pfx bits : Nat) :
    List Nat :=
  (msbBits pfx bits).foldl (specChildStep m left right) root

/-! ### Key sets of the per-channel maps -/

def dictKeys (d : List (Nat × List Nat)) : List Nat := d.map (fun p => p.1)

/-- First-occurrence deduplication, the key order a Python dict
comprehension produces. -/
def dedupFirstAux : List Nat → List Nat → List Nat
  | acc, [] => acc
  | acc, x :: xs => dedupFirstAux (if acc.any (fun y => y == x) then acc else acc ++ [x]) xs

def dedupFirst (l : List Nat) : List Nat := dedupFirstAux [] l

/-! ### Round trip of the secrets JSON -/

def bytesOK (l : List Nat) : Prop := ∀ x ∈ l, x < 256

/-- All binary values in the bundle are genuine byte strings. -/
def SecretsBytesOK (s : GlobalSecrets) : Prop :=
  bytesOK s.enc_private_key ∧ bytesOK s.enc_public_key ∧ bytesOK s.id_root_key ∧
  (∀ p ∈ s.channel_keys, bytesOK p.2) ∧ bytesOK s.left_tree_key ∧
  bytesOK s.right_tree_key ∧ (∀ p ∈ s.tree_root_keys, bytesOK p.2) ∧
  bytesOK s.symbol_shimmy_root_key

/-- A small concrete secrets bundle (channels 1, 2 and the broadcast
channel 0) used to evaluate theorems at concrete inputs. -/
def sampleSecrets : GlobalSecrets where
  enc_private_key := List.replicate 64 1
  enc_public_key := List.replicate 64 2
  id_root_key := List.replicate 32 3
  channel_keys := [(1, List.replicate 32 4), (2, List.replicate 32 5), (0, List.replicate 32 6)]
  left_tree_key := List.replicate 32 7
  right_tree_key := List.replicate 32 8
  tree_root_keys := [(1, List.replicate 16 9), (2, List.replicate 16 10), (0, List.replicate 16 11)]
  symbol_shimmy_root_key := List.replicate 32 12

/-- The on-wire layout of a subscription update: device id first, then
the encryption of the 2080-byte embeddable blob under the device's id
key, then the signature of the whole 2124-byte payload. -/
def SubscriptionUpdateOK (m : Monocypher) (s : GlobalSecrets) (nonce : List Nat)
    (dev start endTs ch : Nat) : Prop :=
  ∃ vsub kid out,
    gen_embeddable_subscription m s dev start endTs ch = some vsub ∧ vsub.length = 2080 ∧
    s.derive_id_key m dev = some kid ∧
    gen_subscription m s nonce dev start endTs ch = some out ∧
    out.length = 2188 ∧
    out.take 4 = leBytes 4 dev ∧
    encrypt_symmetric m nonce vsub kid = some ((out.drop 4).take 2120) ∧
    out.drop 2124 = m.signature_sign s.enc_private_key (out.take 2124)

/-- The key-set invariant of a generated bundle: channel_keys and
tree_root_keys share the key list, namely the input channels
deduplicated by first occurrence with channel 0 appended, and the key
lists survive serialize followed by deserialize. -/
def KeySetsOK (channels : List Nat) (keypair : List Nat × List Nat)
    (rngChannel rngTree : Nat → List Nat)
    (rngIdRoot rngLeft rngRight rngShimmy : List Nat) : Prop :=
  let s := GlobalSecrets.generate channels keypair rngChannel rngTree rngIdRoot
    rngLeft rngRight rngShimmy
  dictKeys s.channel_keys = dictKeys s.tree_root_keys ∧
  dictKeys s.channel_keys = dedupFirst (channels ++ [0]) ∧
  0 ∈ dictKeys s.channel_keys ∧
  dictKeys (GlobalSecrets.deserialize (GlobalSecrets.serialize s)).channel_keys =
    dictKeys s.channel_keys ∧
  dictKeys (GlobalSecrets.deserialize (GlobalSecrets.serialize s)).tree_root_keys =
    dictKeys s.tree_root_keys

theorem padTrunc_length (w : Nat) (b : List Nat) : (padTrunc w b).length = w := by
  simp [padTrunc]
  omega

theorem padTrunc_eq_self {w : Nat} {b : List Nat} (h : b.length = w) :
    padTrunc w b = b := by
  subst h
  simp [padTrunc]

theorem leBytes_length (w n : Nat) : (leBytes w n).length = w := by
  induction w generalizing n with
  | zero => rfl
  | succ w ih => simp [leBytes, ih]

theorem b64dec_b64chr : ∀ i < 64, b64dec (b64chr i) = i := by decide

theorem b64chr_ne_pad (i : Nat) : b64chr i ≠ 61 := by
  unfold b64chr
  split
  · omega
  split
  · omega
  split
  · omega
  split
  · omega
  · omega

theorem b64decode_b64encode : ∀ l : List Nat, (∀ x ∈ l, x < 256) →
    b64decode (b64encode l) = l := by
  intro l
  induction l using b64encode.induct with
  | case1 => intro _; rfl
  | case2 a =>
      intro h
      have ha : a < 256 := h a (by simp)
      have h1 : b64dec (b64chr (a / 4)) = a / 4 := b64dec_b64chr _ (by omega)
      have h2 : b64dec (b64chr (a % 4 * 16)) = a % 4 * 16 := b64dec_b64chr _ (by omega)
      simp [b64encode, b64decode, h1, h2]
      omega
  | case3 a b =>
      intro h
      have ha : a < 256 := h a (by simp)
      have hb : b < 256 := h b (by simp)
      have h1 : b64dec (b64chr (a / 4)) = a / 4 := b64dec_b64chr _ (by omega)
      have h2 : b64dec (b64chr (a % 4 * 16 + b / 16)) = a % 4 * 16 + b / 16 :=
        b64dec_b64chr _ (by omega)
      have h3 : b64dec (b64chr (b % 16 * 4)) = b % 16 * 4 := b64dec_b64chr _ (by omega)
      simp [b64encode, b64decode, b64chr_ne_pad, h1, h2, h3]
      omega
  | case4 a b c rest ih =>
      intro h
      have ha : a < 256 := h a (by simp)
      have hb : b < 256 := h b (by simp)
      have hc : c < 256 := h c (by simp)
      have h1 : b64dec (b64chr (a / 4)) = a / 4 := b64dec_b64chr _ (by omega)
      have h2 : b64dec (b64chr (a % 4 * 16 + b / 16)) = a % 4 * 16 + b / 16 :=
        b64dec_b64chr _ (by omega)
      have h3 : b64dec (b64chr (b % 16 * 4 + c / 64)) = b % 16 * 4 + c / 64 :=
        b64dec_b64chr _ (by omega)
      have h4 : b64dec (b64chr (c % 64)) = c % 64 := b64dec_b64chr _ (by omega)
      have ihr : b64decode (b64encode rest) = rest := by
        apply ih
        intro x hx
        exact h x (by simp [hx])
      simp [b64encode, b64decode, b64chr_ne_pad, h1, h2, h3, h4, ihr]
      refine ⟨by omega, by omega, by omega⟩

theorem foldr_digitsLE (n : Nat) :
    (digitsLE n).foldr (fun d acc => acc * 10 + d) 0 = n := by
  induction n using digitsLE.induct with
  | case1 n h => rw [digitsLE, if_pos h]; simp
  | case2 n h ih =>
      rw [digitsLE, if_neg h]
      simp only [List.foldr_cons, ih]
      omega

theorem parseDec_natRepr (n : Nat) : parseDec (natRepr n) = n := by
  unfold parseDec natRepr
  rw [List.foldl_map, List.foldl_reverse]
  have : ∀ l : List Nat, l.foldr (fun x y => y * 10 + (x + 48 - 48)) 0 =
      l.foldr (fun d acc => acc * 10 + d) 0 := by
    intro l
    induction l with
    | nil => rfl
    | cons d l ih => simp [List.foldr_cons, ih]
  rw [this, foldr_digitsLE]

theorem zeroCrypto_wf : zeroCrypto.WF := by
  refine ⟨fun msg n => by simp [zeroCrypto], fun k nn p => ⟨by simp [zeroCrypto], by simp [zeroCrypto]⟩,
    fun sk msg => by simp [zeroCrypto]⟩

theorem le_pow_lt_pow {x b k : Nat} (h1 : x < 2 ^ b) (h2 : 2 ^ k ≤ x) : k < b := by
  by_contra h
  push_neg at h
  have := Nat.pow_le_pow_right (show 1 ≤ 2 by norm_num) h
  omega

theorem b_pos_of_lt {e b : Nat} (h1 : e < 2 ^ b) (he : 1 ≤ e) : 1 ≤ b := by
  have : 2 ^ 0 ≤ e := by simpa using he
  have := le_pow_lt_pow h1 this
  omega

theorem half_lt_pow {e b : Nat} (h1 : e < 2 ^ b) (hb : 1 ≤ b) : e / 2 < 2 ^ (b - 1) := by
  have hsplit : 2 ^ (b - 1) * 2 = 2 ^ b := by
    rw [← pow_succ]
    congr 1
    omega
  omega

theorem verticesLoop_eq_core : ∀ s e b front back, s ≤ e → e < 2 ^ b →
    verticesLoop s e b front back = some (front ++ vfrCore s e b ++ back.reverse) := by
  intro s e b front back
  induction s, e, b, front, back using verticesLoop.induct with
  | case1 e b front back hlt =>
      intro _ _
      rw [verticesLoop, if_pos rfl, if_pos hlt, vfrCore, if_pos rfl]
      simp
  | case2 e b front back hlt =>
      intro hle hpow
      omega
  | case3 s e b front back hne hlt hpar ih =>
      intro hle hpow
      have hb : 1 ≤ b := b_pos_of_lt hpow (by omega)
      rw [verticesLoop, if_neg hne, if_pos hlt, if_pos hpar,
        vfrCore, if_neg hne, if_pos hlt, if_pos hpar]
      exact ih (by omega) (half_lt_pow hpow hb)
  | case4 s e b front back hne hlt hpar hodd hs ih =>
      intro hle hpow
      rw [verticesLoop, if_neg hne, if_pos hlt, if_neg hpar, if_pos hodd, if_pos hs,
        vfrCore, if_neg hne, if_pos hlt, if_neg hpar, if_pos hodd]
      rw [ih (by omega) hpow]
      simp
  | case5 s e b front back hne hlt hpar hodd hs =>
      intro hle hpow
      omega
  | case6 s e b front back hne hlt hpar hodd he ih =>
      intro hle hpow
      rw [verticesLoop, if_neg hne, if_pos hlt, if_neg hpar, if_neg hodd, if_pos he,
        vfrCore, if_neg hne, if_pos hlt, if_neg hpar, if_neg hodd]
      rw [ih (by omega) (by omega)]
      simp
  | case7 s e b front back hne hlt hpar hodd he =>
      intro hle hpow
      omega
  | case8 s e b front back hne hlt =>
      intro hle hpow
      omega

theorem VChain.append {lo b hi : Nat} {l1 l2 : List Vertex}
    (h1 : VChain lo l1 b) (h2 : VChain (b + 1) l2 hi) : VChain lo (l1 ++ l2) hi := by
  induction l1 generalizing lo with
  | nil => simpa [VChain] using h1 ▸ h2
  | cons v l ih =>
      obtain ⟨hv, hrest⟩ := h1
      exact ⟨hv, ih hrest⟩

theorem vfrCore_chain : ∀ s e b, s ≤ e → e < 2 ^ b → b ≤ 64 →
    VChain (s * 2 ^ (64 - b)) (vfrCore s e b) ((e + 1) * 2 ^ (64 - b) - 1) := by
  intro s e b
  induction s, e, b using vfrCore.induct with
  | case1 e b =>
      intro hle hpow hb64
      rw [vfrCore, if_pos rfl]
      have hW : 1 ≤ 2 ^ (64 - b) := Nat.one_le_two_pow
      have hmul : (e + 1) * 2 ^ (64 - b) = e * 2 ^ (64 - b) + 2 ^ (64 - b) := by ring
      refine ⟨rfl, ?_⟩
      show coveredHi ⟨e, b⟩ + 1 = (e + 1) * 2 ^ (64 - b) - 1 + 1
      simp only [coveredHi, coveredLo]
      omega
  | case2 s e b hne hlt hpar ih =>
      intro hle hpow hb64
      have hb : 1 ≤ b := b_pos_of_lt hpow (by omega)
      rw [vfrCore, if_neg hne, if_pos hlt, if_pos hpar]
      have hrec := ih (by omega) (half_lt_pow hpow hb) (by omega)
      have hexp : 64 - (b - 1) = (64 - b) + 1 := by omega
      rw [hexp, pow_succ] at hrec
      obtain ⟨k, rfl⟩ : ∃ k, s = 2 * k := ⟨s / 2, by omega⟩
      obtain ⟨j, rfl⟩ : ∃ j, e = 2 * j + 1 := ⟨e / 2, by omega⟩
      have h1 : 2 * k / 2 = k := by omega
      have h2 : (2 * j + 1) / 2 = j := by omega
      rw [h1, h2] at hrec ⊢
      have h3 : k * (2 ^ (64 - b) * 2) = 2 * k * 2 ^ (64 - b) := by ring
      have h4 : (j + 1) * (2 ^ (64 - b) * 2) = (2 * j + 1 + 1) * 2 ^ (64 - b) := by ring
      rw [h3, h4] at hrec
      exact hrec
  | case3 s e b hne hlt hpar hodd ih =>
      intro hle hpow hb64
      rw [vfrCore, if_neg hne, if_pos hlt, if_neg hpar, if_pos hodd]
      have hW : 1 ≤ 2 ^ (64 - b) := Nat.one_le_two_pow
      have hmul : (s + 1) * 2 ^ (64 - b) = s * 2 ^ (64 - b) + 2 ^ (64 - b) := by ring
      refine ⟨rfl, ?_⟩
      have hrec := ih (by omega) hpow hb64
      have heq : coveredHi ⟨s, b⟩ + 1 = (s + 1) * 2 ^ (64 - b) := by
        simp only [coveredHi, coveredLo]
        omega
      rw [heq]
      exact hrec
  | case4 s e b hne hlt hpar hodd ih =>
      intro hle hpow hb64
      rw [vfrCore, if_neg hne, if_pos hlt, if_neg hpar, if_neg hodd]
      have hW : 1 ≤ 2 ^ (64 - b) := Nat.one_le_two_pow
      have he2 : 1 ≤ e := by omega
      have hrec := ih (by omega) (by omega) hb64
      have he1 : e - 1 + 1 = e := by omega
      rw [he1] at hrec
      refine hrec.append ?_
      have hmul : (e + 1) * 2 ^ (64 - b) = e * 2 ^ (64 - b) + 2 ^ (64 - b) := by ring
      have hlo : 1 ≤ e * 2 ^ (64 - b) := by
        have := Nat.mul_le_mul he2 hW
        omega
      have hstart : e * 2 ^ (64 - b) - 1 + 1 = e * 2 ^ (64 - b) := by omega
      rw [hstart]
      refine ⟨rfl, ?_⟩
      show coveredHi ⟨e, b⟩ + 1 = (e + 1) * 2 ^ (64 - b) - 1 + 1
      simp only [coveredHi, coveredLo]
      omega
  | case5 s e b hne hlt =>
      intro hle hpow hb64
      omega

theorem coveredLo_le_coveredHi (v : Vertex) : coveredLo v ≤ coveredHi v := by
  have : (1 : Nat) ≤ 2 ^ (64 - v.bits) := Nat.one_le_two_pow
  unfold coveredHi
  omega

theorem VChain_lo_le : ∀ {l : List Vertex} {lo hi : Nat}, VChain lo l hi → lo ≤ hi + 1 := by
  intro l
  induction l with
  | nil => intro lo hi h; exact h.le
  | cons v l ih =>
      intro lo hi h
      obtain ⟨hv, hrest⟩ := h
      have h1 := coveredLo_le_coveredHi v
      have h2 := ih hrest
      omega

theorem VChain_mem : ∀ {l : List Vertex} {lo hi : Nat}, VChain lo l hi →
    ∀ v ∈ l, lo ≤ coveredLo v ∧ coveredHi v ≤ hi := by
  intro l
  induction l with
  | nil => intro lo hi _ v hv; simp at hv
  | cons w l ih =>
      intro lo hi h v hv
      obtain ⟨hw, hrest⟩ := h
      have hle := VChain_lo_le hrest
      rcases List.mem_cons.mp hv with rfl | hvl
      · omega
      · have h1 := ih hrest v hvl
        have h2 := coveredLo_le_coveredHi w
        omega

theorem VChain_pairwise : ∀ {l : List Vertex} {lo hi : Nat}, VChain lo l hi →
    l.Pairwise (fun a b => coveredHi a < coveredLo b) := by
  intro l
  induction l with
  | nil => intro lo hi _; exact List.Pairwise.nil
  | cons v l ih =>
      intro lo hi h
      obtain ⟨hv, hrest⟩ := h
      refine List.Pairwise.cons ?_ (ih hrest)
      intro w hw
      have := (VChain_mem hrest w hw).1
      omega

theorem VChain_union : ∀ {l : List Vertex} {lo hi : Nat}, VChain lo l hi →
    ∀ t, (lo ≤ t ∧ t ≤ hi) ↔ ∃ v ∈ l, coveredLo v ≤ t ∧ t ≤ coveredHi v := by
  intro l
  induction l with
  | nil =>
      intro lo hi h t
      have : lo = hi + 1 := h
      simp
      omega
  | cons v l ih =>
      intro lo hi h t
      obtain ⟨hv, hrest⟩ := h
      have hWv := coveredLo_le_coveredHi v
      have hhi := VChain_lo_le hrest
      have hiff := ih hrest t
      constructor
      · intro ht
        by_cases hc : t ≤ coveredHi v
        · exact ⟨v, List.mem_cons_self v l, by omega, hc⟩
        · obtain ⟨w, hw, hw2⟩ := hiff.mp ⟨by omega, ht.2⟩
          exact ⟨w, List.mem_cons_of_mem v hw, hw2⟩
      · rintro ⟨w, hw, hw1, hw2⟩
        rcases List.mem_cons.mp hw with rfl | hwl
        · omega
        · have := hiff.mpr ⟨w, hwl, hw1, hw2⟩
          omega

theorem vfrCore_valid : ∀ s e b, s ≤ e → e < 2 ^ b →
    ∀ v ∈ vfrCore s e b, v.pfx < 2 ^ v.bits ∧ v.bits ≤ b := by
  intro s e b
  induction s, e, b using vfrCore.induct with
  | case1 e b =>
      intro hle hpow v hv
      rw [vfrCore, if_pos rfl] at hv
      simp at hv
      subst hv
      exact ⟨hpow, le_refl b⟩
  | case2 s e b hne hlt hpar ih =>
      intro hle hpow v hv
      have hb : 1 ≤ b := b_pos_of_lt hpow (by omega)
      rw [vfrCore, if_neg hne, if_pos hlt, if_pos hpar] at hv
      have := ih (by omega) (half_lt_pow hpow hb) v hv
      omega
  | case3 s e b hne hlt hpar hodd ih =>
      intro hle hpow v hv
      rw [vfrCore, if_neg hne, if_pos hlt, if_neg hpar, if_pos hodd] at hv
      rcases List.mem_cons.mp hv with rfl | hvl
      · exact ⟨by simpa using by omega, le_refl b⟩
      · exact ih (by omega) hpow v hvl
  | case4 s e b hne hlt hpar hodd ih =>
      intro hle hpow v hv
      rw [vfrCore, if_neg hne, if_pos hlt, if_neg hpar, if_neg hodd] at hv
      rcases List.mem_append.mp hv with hvl | hvr
      · exact ih (by omega) (by omega) v hvl
      · simp at hvr
        subst hvr
        exact ⟨hpow, le_refl b⟩
  | case5 s e b hne hlt =>
      intro hle hpow v hv
      omega

theorem vfrCore_length_le : ∀ s e b, s ≤ e → e < 2 ^ b →
    (vfrCore s e b).length ≤ lenBound s e b := by
  intro s e b
  induction s, e, b using vfrCore.induct with
  | case1 e b =>
      intro hle hpow
      rw [vfrCore, if_pos rfl]
      simp [lenBound]
  | case2 s e b hne hlt hpar ih =>
      intro hle hpow
      have hb : 1 ≤ b := b_pos_of_lt hpow (by omega)
      rw [vfrCore, if_neg hne, if_pos hlt, if_pos hpar]
      have hrec := ih (by omega) (half_lt_pow hpow hb)
      unfold lenBound at hrec ⊢
      rw [if_neg hne]
      split at hrec <;> omega
  | case3 s e b hne hlt hpar hodd ih =>
      intro hle hpow
      rw [vfrCore, if_neg hne, if_pos hlt, if_neg hpar, if_pos hodd]
      have hrec := ih (by omega) hpow
      have hb : 2 ≤ b := by
        have : 2 ^ 1 ≤ e := by simpa using by omega
        have := le_pow_lt_pow hpow this
        omega
      simp only [List.length_cons]
      unfold lenBound at hrec ⊢
      rw [if_neg hne]
      split at hrec <;> omega
  | case4 s e b hne hlt hpar hodd ih =>
      intro hle hpow
      rw [vfrCore, if_neg hne, if_pos hlt, if_neg hpar, if_neg hodd]
      have hrec := ih (by omega) (by omega)
      have hb : 2 ≤ b := by
        have : 2 ^ 1 ≤ e := by simpa using by omega
        have := le_pow_lt_pow hpow this
        omega
      simp only [List.length_append, List.length_cons, List.length_nil]
      unfold lenBound at hrec ⊢
      rw [if_neg hne]
      split at hrec <;> omega
  | case5 s e b hne hlt =>
      intro hle hpow
      omega

theorem lenBoundT_le : ∀ s e b, s ≤ e → e < 2 ^ b → lenBoundT s e b ≤ max 1 (2 * b - 2) := by
  intro s e b hle hpow
  unfold lenBoundT
  by_cases h1 : s = e
  · rw [if_pos h1]; omega
  rw [if_neg h1]
  have hb1 : 1 ≤ b := b_pos_of_lt hpow (by omega)
  by_cases h2 : s % 2 = 0 ∧ e % 2 = 1
  · rw [if_pos h2]; omega
  rw [if_neg h2]
  have hb : 2 ≤ b := by
    have he2 : 2 ≤ e := by omega
    have : 2 ^ 1 ≤ e := by simpa using he2
    have := le_pow_lt_pow hpow this
    omega
  by_cases h3 : s % 2 = 1 ∧ e % 2 = 0
  · rw [if_pos h3]; omega
  · rw [if_neg h3]; omega

theorem vfrCore_length_le_tight : ∀ s e b, s ≤ e → e < 2 ^ b →
    (vfrCore s e b).length ≤ lenBoundT s e b := by
  intro s e b
  induction s, e, b using vfrCore.induct with
  | case1 e b =>
      intro hle hpow
      rw [vfrCore, if_pos rfl]
      simp [lenBoundT]
  | case2 s e b hne hlt hpar ih =>
      intro hle hpow
      have hb : 1 ≤ b := b_pos_of_lt hpow (by omega)
      rw [vfrCore, if_neg hne, if_pos hlt, if_pos hpar]
      have hhalf := half_lt_pow hpow hb
      have hrec := ih (by omega) hhalf
      have hup := lenBoundT_le (s / 2) (e / 2) (b - 1) (by omega) hhalf
      unfold lenBoundT
      rw [if_neg hne, if_pos hpar]
      omega
  | case3 s e b hne hlt hpar hodd ih =>
      intro hle hpow
      rw [vfrCore, if_neg hne, if_pos hlt, if_neg hpar, if_pos hodd]
      simp only [List.length_cons]
      have hrec := ih (by omega) hpow
      unfold lenBoundT at hrec ⊢
      rw [if_neg hne]
      by_cases heo : e % 2 = 0
      · -- front emission with even end: inner state is the even-even class
        rw [if_neg (by omega), if_pos (by omega)]
        by_cases hse : s + 1 = e
        · rw [if_pos hse] at hrec
          have hb : 2 ≤ b := by
            have : 2 ^ 1 ≤ e := by simpa using by omega
            have := le_pow_lt_pow hpow this
            omega
          omega
        · rw [if_neg hse, if_neg (by omega), if_neg (by omega)] at hrec
          have hb : 3 ≤ b := by
            have he4 : 4 ≤ e := by omega
            have : 2 ^ 2 ≤ e := by simpa using he4
            have := le_pow_lt_pow hpow this
            omega
          omega
  -- odd end: inner state is the shift class
      · rw [if_neg (by omega), if_neg (by omega)]
        have hse : s + 1 ≠ e := by omega
        rw [if_neg hse, if_pos (by omega)] at hrec
        have hb : 2 ≤ b := by
          have : 2 ^ 1 ≤ e := by simpa using by omega
          have := le_pow_lt_pow hpow this
          omega
        omega
  | case4 s e b hne hlt hpar hodd ih =>
      intro hle hpow
      rw [vfrCore, if_neg hne, if_pos hlt, if_neg hpar, if_neg hodd]
      simp only [List.length_append, List.length_cons, List.length_nil]
      have hrec := ih (by omega) (by omega)
      have heo : e % 2 = 0 := by omega
      have hse : s ≠ e - 1 := by omega
      unfold lenBoundT at hrec ⊢
      rw [if_neg hne, if_neg (by omega), if_neg (by omega)]
      rw [if_neg hse, if_pos (by omega)] at hrec
      have hb : 2 ≤ b := by
        have : 2 ^ 1 ≤ e := by simpa using by omega
        have := le_pow_lt_pow hpow this
        omega
      omega
  | case5 s e b hne hlt =>
      intro hle hpow
      omega

/-- Every front-emitted vertex has an odd prefix and every back-emitted
vertex an even prefix; the output splits accordingly around the middle
vertex. -/
theorem vfrCore_split : ∀ s e b, s ≤ e → ∃ F mid B,
    vfrCore s e b = F ++ mid :: B ∧ (∀ v ∈ F, v.pfx % 2 = 1) ∧
    (∀ v ∈ B, v.pfx % 2 = 0) := by
  intro s e b
  induction s, e, b using vfrCore.induct with
  | case1 e b =>
      intro _
      exact ⟨[], ⟨e, b⟩, [], by rw [vfrCore, if_pos rfl]; simp, by simp, by simp⟩
  | case2 s e b hne hlt hpar ih =>
      intro _
      obtain ⟨F, mid, B, heq, hF, hB⟩ := ih (by omega)
      exact ⟨F, mid, B, by rw [vfrCore, if_neg hne, if_pos hlt, if_pos hpar]; exact heq, hF, hB⟩
  | case3 s e b hne hlt hpar hodd ih =>
      intro _
      obtain ⟨F, mid, B, heq, hF, hB⟩ := ih (by omega)
      refine ⟨⟨s, b⟩ :: F, mid, B, ?_, ?_, hB⟩
      · rw [vfrCore, if_neg hne, if_pos hlt, if_neg hpar, if_pos hodd, heq]
        simp
      · intro v hv
        rcases List.mem_cons.mp hv with rfl | hvl
        · exact hodd
        · exact hF v hvl
  | case4 s e b hne hlt hpar hodd ih =>
      intro _
      obtain ⟨F, mid, B, heq, hF, hB⟩ := ih (by omega)
      refine ⟨F, mid, B ++ [⟨e, b⟩], ?_, hF, ?_⟩
      · rw [vfrCore, if_neg hne, if_pos hlt, if_neg hpar, if_neg hodd, heq]
        simp
      · intro v hv
        rcases List.mem_append.mp hv with hvl | hvr
        · exact hB v hvl
        · simp at hvr
          subst hvr
          show e % 2 = 0
          omega
  | case5 s e b hne hlt =>
      intro hle
      omega

theorem chain'_of_odd : ∀ l : List Vertex, (∀ a ∈ l, a.pfx % 2 = 1) →
    List.Chain' (fun a c => ¬ Mergeable a c) l := by
  intro l
  induction l with
  | nil => simp
  | cons a t ih =>
      intro h
      cases t with
      | nil => simp
      | cons c t2 =>
          rw [List.chain'_cons]
          refine ⟨?_, ih (fun x hx => h x (List.mem_cons_of_mem a hx))⟩
          intro hM
          have := h a (List.mem_cons_self a _)
          have := hM.2.2.1
          omega

theorem chain'_of_even : ∀ (l : List Vertex) (x : Vertex), (∀ a ∈ l, a.pfx % 2 = 0) →
    List.Chain' (fun a c => ¬ Mergeable a c) (x :: l) := by
  intro l
  induction l with
  | nil => intro x _; simp
  | cons c t ih =>
      intro x h
      rw [List.chain'_cons]
      refine ⟨?_, ih c (fun a ha => h a (List.mem_cons_of_mem c ha))⟩
      intro hM
      have hc := h c (List.mem_cons_self c t)
      have := hM.2.2.2
      have := hM.2.2.1
      omega

theorem getLast?_mem_of : ∀ (l : List Vertex) (x : Vertex), l.getLast? = some x → x ∈ l := by
  intro l
  induction l with
  | nil => intro x h; simp at h
  | cons a t ih =>
      intro x h
      cases t with
      | nil =>
          simp at h
          simp [h]
      | cons c t2 =>
          rw [List.getLast?_cons_cons] at h
          exact List.mem_cons_of_mem a (ih x h)

theorem vfrCore_nonmergeable (s e b : Nat) (hle : s ≤ e) :
    List.Chain' (fun a c => ¬ Mergeable a c) (vfrCore s e b) := by
  obtain ⟨F, mid, B, heq, hF, hB⟩ := vfrCore_split s e b hle
  rw [heq, List.chain'_append]
  refine ⟨chain'_of_odd F hF, chain'_of_even B mid hB, ?_⟩
  intro x hx y _
  intro hM
  have hxF : x ∈ F := getLast?_mem_of F x hx
  have := hF x hxF
  have := hM.2.2.1
  omega

/-! ### Success of the derivation pipeline under the length guarantees -/

theorem hash_length_ok {m : Monocypher} (hm : m.WF) (msg : List Nat) (n : Nat) :
    hash_length m msg n = some (m.blake2b msg n) := by
  unfold hash_length
  rw [if_pos (hm.1 msg n)]

theorem kdf_tree_child_ok {m : Monocypher} (hm : m.WF) {p lr : List Nat}
    (hp : p.length = 16) (hlr : lr.length = 32) :
    ∃ k, kdf_tree_child m p lr = some k ∧ k.length = 16 := by
  unfold kdf_tree_child
  rw [if_pos ⟨hp, hlr⟩, hash_length_ok hm]
  have hlen := hm.1 (packTreeChildTmp p lr) TREE_KEY_LEN
  refine ⟨m.blake2b (packTreeChildTmp p lr) TREE_KEY_LEN, ?_, hlen⟩
  simp [Option.bind, hlen]

theorem treeDescend_ok {m : Monocypher} (hm : m.WF) {l r : List Nat}
    (hl : l.length = 32) (hr : r.length = 32) :
    ∀ (i pfx : Nat) (key : List Nat), key.length = 16 →
    ∃ k, treeDescend m l r key pfx i = some k ∧ k.length = 16 := by
  intro i
  induction i with
  | zero => intro pfx key hk; exact ⟨key, rfl, hk⟩
  | succ i ih =>
      intro pfx key hk
      have hlr2 : (if pfx &&& (1 <<< i) = 0 then l else r).length = 32 := by
        split <;> assumption
      obtain ⟨k2, hk2, hk2l⟩ := kdf_tree_child_ok hm hk hlr2
      obtain ⟨k3, hk3, hk3l⟩ := ih pfx k2 hk2l
      exact ⟨k3, by rw [treeDescend, hk2, Option.some_bind, hk3], hk3l⟩

theorem derive_tree_key_ok {m : Monocypher} (hm : m.WF) (s : GlobalSecrets)
    {ch : Nat} {v : Vertex} {root : List Nat}
    (hch : ch < 2 ^ 32) (hv : v.pfx < 2 ^ v.bits)
    (hroot : dictGet s.tree_root_keys ch = some root) (hrl : root.length = 16)
    (hl : s.left_tree_key.length = 32) (hr : s.right_tree_key.length = 32) :
    ∃ k, s.derive_tree_key m ch v = some k ∧ k.length = 16 := by
  unfold GlobalSecrets.derive_tree_key
  rw [if_pos ⟨hch, hv⟩, hroot, Option.some_bind]
  by_cases hb : v.bits = 0
  · rw [if_pos hb]
    exact ⟨root, rfl, hrl⟩
  · rw [if_neg hb]
    exact treeDescend_ok hm hl hr v.bits v.pfx root hrl

theorem treeKeysConcat_ok {m : Monocypher} (hm : m.WF) (s : GlobalSecrets)
    {ch : Nat} {root : List Nat}
    (hch : ch < 2 ^ 32) (hroot : dictGet s.tree_root_keys ch = some root)
    (hrl : root.length = 16)
    (hl : s.left_tree_key.length = 32) (hr : s.right_tree_key.length = 32) :
    ∀ vl : List Vertex, (∀ v ∈ vl, v.pfx < 2 ^ v.bits) →
    ∃ kt, treeKeysConcat m s ch vl = some kt ∧ kt.length = vl.length * 16 := by
  intro vl
  induction vl with
  | nil => intro _; exact ⟨[], rfl, by simp⟩
  | cons v rest ih =>
      intro hvalid
      obtain ⟨k, hk, hkl⟩ := derive_tree_key_ok hm s hch
        (hvalid v (List.mem_cons_self v rest)) hroot hrl hl hr
      obtain ⟨kt, hkt, hktl⟩ := ih (fun w hw => hvalid w (List.mem_cons_of_mem v hw))
      refine ⟨k ++ kt, ?_, by simp [hkl, hktl]; ring⟩
      rw [treeKeysConcat, hk, Option.some_bind, hkt]
      rfl

/-- Lengths of the sub-fields of a packed ValidSubscription. -/
theorem packValidSubscription_ok (ktree kch : List Nat) (start endTs channel n : Nat)
    (h1 : start < 2 ^ 64) (h2 : endTs < 2 ^ 64) (h3 : channel < 2 ^ 32)
    (h4 : n < 2 ^ 32) :
    ∃ out, packValidSubscription ktree kch start endTs channel n SUBSCRIPTION_MAGIC [] =
      some out ∧ out.length = 2080 := by
  unfold packValidSubscription
  rw [if_pos ⟨h1, h2, h3, h4, by norm_num [SUBSCRIPTION_MAGIC]⟩]
  refine ⟨_, rfl, ?_⟩
  simp [padTrunc_length, leBytes_length, MAX_TREE_KEYS, TREE_KEY_LEN, SYMMETRIC_KEY_LEN]

/-- Success and shape of gen_embeddable_subscription for a valid input:
the channel is known, the interval is a u64 range, and the secrets
bundle has keys of the documented lengths. -/
theorem gen_embeddable_ok {m : Monocypher} (hm : m.WF) (s : GlobalSecrets)
    {dev start endTs ch : Nat} {kch root : List Nat}
    (hkch : dictGet s.channel_keys ch = some kch)
    (hroot : dictGet s.tree_root_keys ch = some root) (hrl : root.length = 16)
    (hl : s.left_tree_key.length = 32) (hr : s.right_tree_key.length = 32)
    (hse : start ≤ endTs) (hend : endTs < 2 ^ 64) (hch : ch < 2 ^ 32) :
    ∃ l out, vertices_for_range start endTs = some l ∧ l.length ≤ 126 ∧
      gen_embeddable_subscription m s dev start endTs ch = some out ∧
      out.length = 2080 := by
  have hvfr : vertices_for_range start endTs = some (vfrCore start endTs 64) := by
    unfold vertices_for_range
    rw [verticesLoop_eq_core start endTs 64 [] [] hse hend]
    simp
  have hlen : (vfrCore start endTs 64).length ≤ 126 := by
    have h1 := vfrCore_length_le_tight start endTs 64 hse hend
    have h2 := lenBoundT_le start endTs 64 hse hend
    omega
  have hvalid : ∀ v ∈ vfrCore start endTs 64, v.pfx < 2 ^ v.bits := by
    intro v hv
    exact (vfrCore_valid start endTs 64 hse hend v hv).1
  obtain ⟨kt, hkt, hktl⟩ := treeKeysConcat_ok hm s hch hroot hrl hl hr _ hvalid
  obtain ⟨out, hout, houtl⟩ := packValidSubscription_ok kt kch start endTs ch
    (vfrCore start endTs 64).length (by omega) hend hch (by omega)
  refine ⟨vfrCore start endTs 64, out, hvfr, hlen, ?_, houtl⟩
  unfold gen_embeddable_subscription
  rw [hkch, Option.some_bind, hvfr, Option.some_bind, hkt, Option.some_bind,
    if_pos (by simpa [TREE_KEY_LEN] using hktl)]
  exact hout

theorem kdf_tree_child_eq {m : Monocypher} (hm : m.WF) {p lr : List Nat}
    (hp : p.length = 16) (hlr : lr.length = 32) :
    kdf_tree_child m p lr = some (m.blake2b (p ++ lr) 16) := by
  unfold kdf_tree_child packTreeChildTmp
  simp only [TREE_KEY_LEN, TREE_LEFT_RIGHT_LEN]
  rw [if_pos ⟨hp, hlr⟩, padTrunc_eq_self hp, padTrunc_eq_self hlr, hash_length_ok hm]
  simp [hm.1]

theorem shiftLeft_one_eq (i : Nat) : 1 <<< i = 2 ^ i := by
  rw [Nat.shiftLeft_eq, one_mul]

theorem and_mask_eq_testBit (pfx i : Nat) :
    (pfx &&& (1 <<< i) = 0) ↔ (pfx.testBit i = false) := by
  rw [shiftLeft_one_eq, Nat.and_two_pow]
  have hpow : 0 < 2 ^ i := pow_pos (by norm_num) i
  cases h : pfx.testBit i
  · simp [h]
  · simp [h]

theorem treeDescend_eq_fold {m : Monocypher} (hm : m.WF) {l r : List Nat}
    (hl : l.length = 32) (hr : r.length = 32) :
    ∀ (i pfx : Nat) (key : List Nat), key.length = 16 →
    treeDescend m l r key pfx i =
      some ((msbBits pfx i).foldl (specChildStep m l r) key) := by
  intro i
  induction i with
  | zero => intro pfx key hk; rfl
  | succ i ih =>
      intro pfx key hk
      have hdir : (if pfx &&& (1 <<< i) = 0 then l else r).length = 32 := by
        split <;> assumption
      rw [treeDescend, kdf_tree_child_eq hm hk hdir, Option.some_bind]
      have hstep : (if pfx &&& (1 <<< i) = 0 then l else r) =
          (if pfx.testBit i then r else l) := by
        by_cases hz : pfx &&& (1 <<< i) = 0
        · have hb := (and_mask_eq_testBit pfx i).mp hz
          rw [if_pos hz, hb]
          simp
        · have hb : pfx.testBit i = true := by
            cases h : pfx.testBit i
            · exact absurd ((and_mask_eq_testBit pfx i).mpr h) hz
            · rfl
          rw [if_neg hz, hb]
          simp
      rw [ih pfx _ (hm.1 _ _)]
      show _ = some ((msbBits pfx (i + 1)).foldl (specChildStep m l r) key)
      rw [msbBits, List.foldl_cons]
      unfold specChildStep
      simp only [TREE_KEY_LEN]
      rw [hstep]

theorem encrypt_symmetric_eq {m : Monocypher} (hm : m.WF) {nonce pt key : List Nat}
    (hk : key.length = 32) (hn : nonce.length = 24) :
    encrypt_symmetric m nonce pt key =
      some ((m.lock key nonce pt).1 ++ nonce ++ (m.lock key nonce pt).2) := by
  unfold encrypt_symmetric
  simp only [SYMMETRIC_KEY_LEN, SYMMETRIC_METADATA_LEN, SYMMETRIC_NONCE_LEN,
    SYMMETRIC_MAC_LEN]
  rw [if_pos hk, if_pos ?_]
  have h1 := (hm.2.1 key nonce pt).1
  have h2 := (hm.2.1 key nonce pt).2
  simp [h1, h2, hn]
  omega

theorem encrypt_symmetric_length {m : Monocypher} (hm : m.WF) {nonce pt key c : List Nat}
    (hk : key.length = 32) (hn : nonce.length = 24)
    (hc : encrypt_symmetric m nonce pt key = some c) : c.length = pt.length + 40 := by
  rw [encrypt_symmetric_eq hm hk hn] at hc
  have h1 := (hm.2.1 key nonce pt).1
  have h2 := (hm.2.1 key nonce pt).2
  cases hc
  simp [h1, h2, hn]
  omega

theorem sign_asymmetric_eq {m : Monocypher} (hm : m.WF) {msg sk : List Nat}
    (hsk : sk.length = 64) :
    sign_asymmetric m msg sk = some (m.signature_sign sk msg) := by
  unfold sign_asymmetric
  simp only [PRIVATE_KEY_LEN, SIGNATURE_LEN]
  rw [if_pos hsk, if_pos (hm.2.2 sk msg)]

theorem derive_id_key_ok {m : Monocypher} (hm : m.WF) (s : GlobalSecrets)
    {dev : Nat} (hdev : dev < 2 ^ 32) (hroot : s.id_root_key.length = 32) :
    ∃ kid, s.derive_id_key m dev = some kid ∧ kid.length = 32 := by
  unfold GlobalSecrets.derive_id_key kdf_id
  simp only [SYMMETRIC_KEY_LEN]
  rw [if_pos hdev, if_pos ⟨hroot, hdev⟩, hash_length_ok hm]
  refine ⟨m.blake2b (leBytes 4 dev ++ padTrunc 32 s.id_root_key) 32, ?_, hm.1 _ _⟩
  rw [Option.some_bind, if_pos (hm.1 _ _)]

theorem dictKeys_dictInsert (d : List (Nat × List Nat)) (k : Nat) (v : List Nat) :
    dictKeys (dictInsert d k v) =
      if (dictKeys d).any (fun y => y == k) then dictKeys d else dictKeys d ++ [k] := by
  have hcond : ((dictKeys d).any fun y => y == k) = (d.any fun p => p.1 == k) := by
    unfold dictKeys
    induction d with
    | nil => rfl
    | cons p d ih => simp [List.any_cons, ih]
  rw [hcond]
  unfold dictInsert
  by_cases h : d.any (fun p => p.1 == k)
  · rw [if_pos h, if_pos h]
    unfold dictKeys
    rw [List.map_map]
    apply List.map_congr_left
    intro p _
    show (if p.1 == k then (p.1, v) else p).1 = p.1
    split <;> rfl
  · rw [if_neg h, if_neg h]
    simp [dictKeys]

theorem dictKeys_dictComp (g : Nat → List Nat) :
    ∀ (ks : List Nat) (i : Nat) (d : List (Nat × List Nat)),
    dictKeys (dictComp g i d ks) = dedupFirstAux (dictKeys d) ks := by
  intro ks
  induction ks with
  | nil => intro i d; rfl
  | cons x xs ih =>
      intro i d
      rw [dictComp, ih, dedupFirstAux, dictKeys_dictInsert]

theorem mem_dedupFirstAux : ∀ (xs acc : List Nat) (x : Nat),
    x ∈ xs ∨ x ∈ acc → x ∈ dedupFirstAux acc xs := by
  intro xs
  induction xs with
  | nil =>
      intro acc x h
      rcases h with h | h
      · simp at h
      · exact h
  | cons y ys ih =>
      intro acc x h
      rw [dedupFirstAux]
      by_cases hc : acc.any (fun z => z == y)
      · rw [if_pos hc]
        rcases h with h | h
        · rcases List.mem_cons.mp h with rfl | hys
          · refine ih acc x (Or.inr ?_)
            obtain ⟨z, hz, hzx⟩ := List.any_eq_true.mp hc
            have : z = x := by simpa using hzx
            exact this ▸ hz
          · exact ih acc x (Or.inl hys)
        · exact ih acc x (Or.inr h)
      · rw [if_neg hc]
        rcases h with h | h
        · rcases List.mem_cons.mp h with rfl | hys
          · exact ih _ x (Or.inr (by simp))
          · exact ih _ x (Or.inl hys)
        · exact ih _ x (Or.inr (by simp [h]))

theorem map_roundtrip (d : List (Nat × List Nat)) (hd : ∀ p ∈ d, bytesOK p.2) :
    (d.map (fun p => (natRepr p.1, b64encode p.2))).map
      (fun p => (parseDec p.1, b64decode p.2)) = d := by
  rw [List.map_map]
  have h : ∀ p ∈ d, ((fun p : List Nat × List Nat => (parseDec p.1, b64decode p.2)) ∘
      (fun p : Nat × List Nat => (natRepr p.1, b64encode p.2))) p = id p := by
    intro p hp
    simp [Function.comp, parseDec_natRepr, b64decode_b64encode p.2 (hd p hp)]
  rw [List.map_congr_left h, List.map_id]

theorem deserialize_serialize (s : GlobalSecrets) (h : SecretsBytesOK s) :
    GlobalSecrets.deserialize (GlobalSecrets.serialize s) = s := by
  obtain ⟨h1, h2, h3, h4, h5, h6, h7, h8⟩ := h
  cases s with
  | mk a b c ck l r tk sh =>
      simp only [GlobalSecrets.serialize, GlobalSecrets.deserialize, GlobalSecrets.mk.injEq]
      exact ⟨b64decode_b64encode a h1, b64decode_b64encode b h2, b64decode_b64encode c h3,
        map_roundtrip ck h4, b64decode_b64encode l h5, b64decode_b64encode r h6,
        map_roundtrip tk h7, b64decode_b64encode sh h8⟩

theorem dictInsert_values {d : List (Nat × List Nat)} {v : List Nat} {k : Nat}
    (hd : ∀ p ∈ d, bytesOK p.2) (hv : bytesOK v) :
    ∀ p ∈ dictInsert d k v, bytesOK p.2 := by
  intro p hp
  unfold dictInsert at hp
  by_cases h : d.any (fun q => q.1 == k)
  · rw [if_pos h] at hp
    obtain ⟨q, hq, hqe⟩ := List.mem_map.mp hp
    by_cases hq1 : q.1 == k
    · rw [if_pos hq1] at hqe
      cases hqe
      exact hv
    · rw [if_neg hq1] at hqe
      exact hqe ▸ hd q hq
  · rw [if_neg h] at hp
    rcases List.mem_append.mp hp with hpl | hpr
    · exact hd p hpl
    · simp at hpr
      rw [hpr]
      exact hv

theorem dictComp_values (g : Nat → List Nat) (hg : ∀ i, bytesOK (g i)) :
    ∀ (ks : List Nat) (i : Nat) (d : List (Nat × List Nat)),
    (∀ p ∈ d, bytesOK p.2) → ∀ p ∈ dictComp g i d ks, bytesOK p.2 := by
  intro ks
  induction ks with
  | nil => intro i d hd; exact hd
  | cons x xs ih =>
      intro i d hd
      exact ih (i + 1) _ (dictInsert_values hd (hg i))

theorem generate_bytesOK (channels : List Nat) (keypair : List Nat × List Nat)
    (rngChannel rngTree : Nat → List Nat) (rngIdRoot rngLeft rngRight rngShimmy : List Nat)
    (hkp1 : bytesOK keypair.1) (hkp2 : bytesOK keypair.2)
    (hC : ∀ i, bytesOK (rngChannel i)) (hT : ∀ i, bytesOK (rngTree i))
    (hid : bytesOK rngIdRoot) (hl : bytesOK rngLeft) (hr : bytesOK rngRight)
    (hsh : bytesOK rngShimmy) :
    SecretsBytesOK (GlobalSecrets.generate channels keypair rngChannel rngTree
      rngIdRoot rngLeft rngRight rngShimmy) := by
  refine ⟨hkp1, hkp2, hid, ?_, hl, hr, ?_, hsh⟩
  · exact dictComp_values rngChannel hC (channels ++ [0]) 0 [] (by simp)
  · exact dictComp_values rngTree hT (channels ++ [0]) 0 [] (by simp)

theorem gen_subscription_layout {m : Monocypher} (hm : m.WF) (s : GlobalSecrets)
    {nonce kch root : List Nat} {dev start endTs ch : Nat}
    (hn : nonce.length = 24)
    (hkch : dictGet s.channel_keys ch = some kch)
    (hroot : dictGet s.tree_root_keys ch = some root) (hrl : root.length = 16)
    (hl : s.left_tree_key.length = 32) (hr : s.right_tree_key.length = 32)
    (hid : s.id_root_key.length = 32) (hsk : s.enc_private_key.length = 64)
    (hdev : dev < 2 ^ 32) (hse : start ≤ endTs) (hend : endTs < 2 ^ 64)
    (hch : ch < 2 ^ 32) :
    SubscriptionUpdateOK m s nonce dev start endTs ch := by
  obtain ⟨l, vsub, hvfr, hlen, hemb, hembl⟩ :=
    gen_embeddable_ok hm s hkch hroot hrl hl hr hse hend hch
  obtain ⟨kid, hkid, hkidl⟩ := derive_id_key_ok hm s hdev hid
  have henc : encrypt_symmetric m nonce vsub kid =
      some ((m.lock kid nonce vsub).1 ++ nonce ++ (m.lock kid nonce vsub).2) :=
    encrypt_symmetric_eq hm hkidl hn
  have hct : ((m.lock kid nonce vsub).1 ++ nonce ++ (m.lock kid nonce vsub).2).length =
      2120 := by
    have h1 := (hm.2.1 kid nonce vsub).1
    have h2 := (hm.2.1 kid nonce vsub).2
    simp [h1, h2, hn, hembl]
  set ct := (m.lock kid nonce vsub).1 ++ nonce ++ (m.lock kid nonce vsub).2 with hctdef
  have hpay : packSubscriptionUpdatePayload dev ct = some (leBytes 4 dev ++ ct) := by
    unfold packSubscriptionUpdatePayload
    simp only [SYMMETRIC_METADATA_LEN, SYMMETRIC_NONCE_LEN, SYMMETRIC_MAC_LEN]
    rw [if_pos hdev, padTrunc_eq_self (by rw [hct])]
  set payload := leBytes 4 dev ++ ct with hpaydef
  have hpayl : payload.length = 2124 := by
    simp [hpaydef, leBytes_length, hct]
  have hsig : sign_asymmetric m payload s.enc_private_key =
      some (m.signature_sign s.enc_private_key payload) := sign_asymmetric_eq hm hsk
  set sig := m.signature_sign s.enc_private_key payload with hsigdef
  have hsigl : sig.length = 64 := hm.2.2 _ _
  have hupd : packSubscriptionUpdate payload sig = payload ++ sig := by
    unfold packSubscriptionUpdate
    simp only [SIGNATURE_LEN]
    rw [padTrunc_eq_self hpayl, padTrunc_eq_self hsigl]
  have hout : gen_subscription m s nonce dev start endTs ch = some (payload ++ sig) := by
    unfold gen_subscription
    rw [hemb, Option.some_bind, hkid, Option.some_bind, henc, Option.some_bind,
      hpay, Option.some_bind, hsig, Option.some_bind, hupd]
  refine ⟨vsub, kid, payload ++ sig, hemb, hembl, hkid, hout, ?_, ?_, ?_, ?_⟩
  · simp [hpayl, hsigl]
  · rw [List.take_append_eq_append_take]
    have h4 : (4 : Nat) - payload.length = 0 := by omega
    rw [h4, List.take_zero, List.append_nil, hpaydef, List.take_append_eq_append_take]
    simp [leBytes_length]
  · rw [henc]
    congr 1
    have hdrop4 : List.drop 4 (payload ++ sig) = ct ++ sig := by
      rw [hpaydef, List.append_assoc, List.drop_append_eq_append_drop]
      have h0 : (4 : Nat) - (leBytes 4 dev).length = 0 := by simp [leBytes_length]
      rw [h0, List.drop_zero, List.drop_eq_nil_of_le (by simp [leBytes_length])]
      simp
    rw [hdrop4, List.take_append_eq_append_take]
    have h5 : 2120 - ct.length = 0 := by omega
    rw [h5, List.take_zero, List.append_nil, List.take_of_length_le (by omega)]
  · have ht : (payload ++ sig).take 2124 = payload := by
      rw [List.take_append_eq_append_take]
      have h5 : 2124 - payload.length = 0 := by omega
      rw [h5, List.take_zero, List.append_nil, List.take_of_length_le (by omega)]
    have hd : (payload ++ sig).drop 2124 = sig := by
      rw [List.drop_append_eq_append_drop]
      have h5 : 2124 - payload.length = 0 := by omega
      rw [h5, List.drop_zero, List.drop_eq_nil_of_le (by omega)]
      simp
    rw [ht, hd, hsigdef]

theorem take_append_exact {l1 l2 : List Nat} {n : Nat} (h : l1.length = n) :
    (l1 ++ l2).take n = l1 := by
  rw [List.take_append_eq_append_take, List.take_of_length_le (le_of_eq h), h,
    Nat.sub_self, List.take_zero, List.append_nil]

theorem drop_append_exact {l1 l2 : List Nat} {n : Nat} (h : l1.length = n) :
    (l1 ++ l2).drop n = l2 := by
  rw [List.drop_append_eq_append_drop, List.drop_eq_nil_of_le (le_of_eq h), h,
    Nat.sub_self, List.drop_zero, List.nil_append]

theorem bytesOK_replicate (n c : Nat) (hc : c < 256) : bytesOK (List.replicate n c) := by
  intro x hx
  rw [List.eq_of_mem_replicate hx]
  exact hc

theorem roundtrip_keys (d : List (Nat × List Nat)) :
    dictKeys ((d.map (fun p => (natRepr p.1, b64encode p.2))).map
      (fun p => (parseDec p.1, b64decode p.2))) = dictKeys d := by
  rw [List.map_map]
  unfold dictKeys
  rw [List.map_map]
  apply List.map_congr_left
  intro p _
  simp [Function.comp, parseDec_natRepr]

/-- C1: for every pair of u64 timestamps with start ≤ end,
vertices_for_range returns an ordered list of valid vertices whose
covered timestamp sets are pairwise disjoint and ordered front-to-back
over the timeline, whose union is exactly the closed interval
[start, end], whose length is at most 127, and in which no two
adjacent vertices can be merged into a single vertex one level up. -/
theorem claim_C1_cover_correct (start endTs : Nat) (h1 : start ≤ endTs)
    (h2 : endTs < 2 ^ 64) : CoverOK start endTs := by
  have hl := verticesLoop_eq_core start endTs 64 [] [] h1 h2
  have hvfr : vertices_for_range start endTs = some (vfrCore start endTs 64) := by
    unfold vertices_for_range
    rw [hl]
    simp
  have hchain : VChain start (vfrCore start endTs 64) endTs := by
    have := vfrCore_chain start endTs 64 h1 h2 (le_refl 64)
    simpa using this
  refine ⟨vfrCore start endTs 64, hvfr, vfrCore_valid start endTs 64 h1 h2,
    VChain_pairwise hchain, VChain_union hchain, ?_,
    vfrCore_nonmergeable start endTs 64 h1⟩
  have hlen := vfrCore_length_le start endTs 64 h1 h2
  unfold lenBound at hlen
  split at hlen <;> omega

/-- Witness for C1 at the concrete range [5, 10]. -/
theorem claim_C1_cover_correct_witness :
    (5 ≤ 10 ∧ 10 < 2 ^ 64) ∧ CoverOK 5 10 :=
  ⟨⟨by norm_num, by norm_num⟩, claim_C1_cover_correct 5 10 (by norm_num) (by norm_num)⟩

/-- C2: for every channel present in tree_root_keys and every valid
vertex, derive_tree_key returns the channel root when bits = 0 and
otherwise the fold of the child step (Blake2b-16 of the 16-byte parent
key followed by the 32-byte left or right direction key) over the bits
most-significant bits of the prefix, MSB first. -/
theorem claim_C2_derive_tree_key_spec {m : Monocypher} (hm : m.WF) (s : GlobalSecrets)
    {ch : Nat} {v : Vertex} {root : List Nat}
    (hroot : dictGet s.tree_root_keys ch = some root) (hrl : root.length = 16)
    (hl : s.left_tree_key.length = 32) (hr : s.right_tree_key.length = 32)
    (hch : ch < 2 ^ 32) (hv : v.pfx < 2 ^ v.bits) (hb : v.bits ≤ 64) :
    s.derive_tree_key m ch v =
      some (specDeriveTreeKey m s.left_tree_key s.right_tree_key root v.pfx v.bits) := by
  unfold GlobalSecrets.derive_tree_key
  rw [if_pos ⟨hch, hv⟩, hroot, Option.some_bind]
  by_cases hbz : v.bits = 0
  · rw [if_pos hbz, hbz]
    rfl
  · rw [if_neg hbz]
    exact treeDescend_eq_fold hm hl hr v.bits v.pfx root hrl

/-- Witness for C2 on channel 1 and vertex (2, 3) of the sample bundle. -/
theorem claim_C2_derive_tree_key_spec_witness :
    (dictGet sampleSecrets.tree_root_keys 1 = some (List.replicate 16 9) ∧
      (2 : Nat) < 2 ^ 3 ∧ (3 : Nat) ≤ 64) ∧
    GlobalSecrets.derive_tree_key zeroCrypto sampleSecrets 1 ⟨2, 3⟩ =
      some (specDeriveTreeKey zeroCrypto sampleSecrets.left_tree_key
        sampleSecrets.right_tree_key (List.replicate 16 9) 2 3) :=
  ⟨⟨rfl, by norm_num, by norm_num⟩,
    claim_C2_derive_tree_key_spec zeroCrypto_wf sampleSecrets rfl rfl rfl rfl
      (by norm_num) (by norm_num) (by norm_num)⟩

/-- C3: for every valid input, gen_subscription returns 2188 bytes:
bytes [0:4] are the little-endian u32 device id, bytes [4:2124] the
authenticated encryption of the 2080-byte embeddable subscription
under the device's derived id key, and bytes [2124:2188] the signature
under enc_private_key of the full 2124-byte payload (id and ciphertext
together). -/
theorem claim_C3_subscription_update {m : Monocypher} (hm : m.WF) (s : GlobalSecrets)
    {nonce kch root : List Nat} {dev start endTs ch : Nat}
    (hn : nonce.length = 24)
    (hkch : dictGet s.channel_keys ch = some kch)
    (hroot : dictGet s.tree_root_keys ch = some root) (hrl : root.length = 16)
    (hl : s.left_tree_key.length = 32) (hr : s.right_tree_key.length = 32)
    (hid : s.id_root_key.length = 32) (hsk : s.enc_private_key.length = 64)
    (hdev : dev < 2 ^ 32) (hse : start ≤ endTs) (hend : endTs < 2 ^ 64)
    (hch : ch < 2 ^ 32) :
    SubscriptionUpdateOK m s nonce dev start endTs ch :=
  gen_subscription_layout hm s hn hkch hroot hrl hl hr hid hsk hdev hse hend hch

/-- Witness for C3: device 0xDEADBEEF, channel 1, range [100, 200]. -/
theorem claim_C3_subscription_update_witness :
    ((0xDEADBEEF : Nat) < 2 ^ 32 ∧ (100 : Nat) ≤ 200 ∧ (200 : Nat) < 2 ^ 64) ∧
    SubscriptionUpdateOK zeroCrypto sampleSecrets (List.replicate 24 0) 0xDEADBEEF 100 200 1 :=
  ⟨⟨by norm_num, by norm_num, by norm_num⟩,
    claim_C3_subscription_update zeroCrypto_wf sampleSecrets rfl rfl rfl rfl rfl rfl rfl
      rfl (by norm_num) (by norm_num) (by norm_num) (by norm_num)⟩

/-- C4 counterexample: encoding on channel 42 with a bundle generated
for channels 1 and 2 returns the empty byte string — a value, not a
typed error. -/
theorem claim_C4_counterexample :
    Encoder.encode zeroCrypto sampleSecrets [] [] 42 [1, 2, 3] 100 = some [] := rfl

/-- C4 amended: for every channel not present in channel_keys,
Encoder.encode logs and returns empty bytes rather than failing with a
typed error. -/
theorem claim_C4_unknown_channel_empty (m : Monocypher) (keys : GlobalSecrets)
    (nonceFrame nonceCh : List Nat) (channel : Nat) (frame : List Nat) (timestamp : Nat)
    (h : dictGet keys.channel_keys channel = none) :
    Encoder.encode m keys nonceFrame nonceCh channel frame timestamp = some [] := by
  unfold Encoder.encode
  rw [h]

/-- Witness for the amended C4 on another unknown channel. -/
theorem claim_C4_unknown_channel_empty_witness :
    dictGet sampleSecrets.channel_keys 7 = none ∧
    Encoder.encode zeroCrypto sampleSecrets [] [] 7 [9] 3 = some [] :=
  ⟨rfl, claim_C4_unknown_channel_empty zeroCrypto sampleSecrets [] [] 7 [9] 3 rfl⟩

set_option maxRecDepth 10000 in
/-- C5 (code bug): a 65-byte frame is not rejected with an
OversizedFrame error: encode succeeds, and the inner FrameData is
packed with length field 65 while the frame bytes are silently
truncated to the first 64. -/
theorem claim_C5_oversized_frame_truncated :
    packFrameData (List.replicate 65 7).length (List.replicate 65 7) =
      some (leBytes 4 65 ++ List.replicate 64 7) ∧
    (Encoder.encode zeroCrypto sampleSecrets (List.replicate 24 0) (List.replicate 24 0)
      1 (List.replicate 65 7) 0).isSome = true := by
  constructor
  · decide
  · decide

/-- C6 counterexample: no valid u64 range has a cover of more than 126
vertices, so in particular covers of size 127 do not exist and the
claimed rejection condition is unreachable. -/
theorem claim_C6_counterexample :
    ¬ ∃ start endTs l, start ≤ endTs ∧ endTs < 2 ^ 64 ∧
      vertices_for_range start endTs = some l ∧ 126 < l.length := by
  rintro ⟨s, e, l, h1, h2, h3, h4⟩
  have hl := verticesLoop_eq_core s e 64 [] [] h1 h2
  unfold vertices_for_range at h3
  rw [hl] at h3
  simp only [List.nil_append, List.reverse_nil, List.append_nil, Option.some.injEq] at h3
  subst h3
  have ht := vfrCore_length_le_tight s e 64 h1 h2
  have hu := lenBoundT_le s e 64 h1 h2
  omega

/-- C6 amended: the cover of a valid u64 range never exceeds 126
vertices, so the 126-slot ktree field always suffices;
gen_embeddable_subscription performs no oversize check and produces a
2080-byte blob for every valid input. -/
theorem claim_C6_cover_fits {m : Monocypher} (hm : m.WF) (s : GlobalSecrets)
    {dev start endTs ch : Nat} {kch root : List Nat}
    (hkch : dictGet s.channel_keys ch = some kch)
    (hroot : dictGet s.tree_root_keys ch = some root) (hrl : root.length = 16)
    (hl : s.left_tree_key.length = 32) (hr : s.right_tree_key.length = 32)
    (hse : start ≤ endTs) (hend : endTs < 2 ^ 64) (hch : ch < 2 ^ 32) :
    ∃ l out, vertices_for_range start endTs = some l ∧ l.length ≤ 126 ∧
      gen_embeddable_subscription m s dev start endTs ch = some out ∧
      out.length = 2080 :=
  gen_embeddable_ok hm s hkch hroot hrl hl hr hse hend hch

/-- Witness for the amended C6 at the extremal range [1, 2^64 - 2]. -/
theorem claim_C6_cover_fits_witness :
    ((1 : Nat) ≤ 2 ^ 64 - 2 ∧ 2 ^ 64 - 2 < 2 ^ 64) ∧
    (∃ l out, vertices_for_range 1 (2 ^ 64 - 2) = some l ∧ l.length ≤ 126 ∧
      gen_embeddable_subscription zeroCrypto sampleSecrets 5 1 (2 ^ 64 - 2) 1 = some out ∧
      out.length = 2080) :=
  ⟨⟨by norm_num, by norm_num⟩,
    claim_C6_cover_fits zeroCrypto_wf sampleSecrets rfl rfl rfl rfl rfl
      (by norm_num) (by norm_num) (by norm_num)⟩

/-- C7: for every channel list and every secrets bundle produced by
generate (with genuine byte-string CSPRNG draws), deserialize after
serialize is the identity, field for field, the per-channel maps with
their integer channel ids restored from decimal-string JSON keys. -/
theorem claim_C7_roundtrip (channels : List Nat) (keypair : List Nat × List Nat)
    (rngChannel rngTree : Nat → List Nat)
    (rngIdRoot rngLeft rngRight rngShimmy : List Nat)
    (hkp1 : bytesOK keypair.1) (hkp2 : bytesOK keypair.2)
    (hC : ∀ i, bytesOK (rngChannel i)) (hT : ∀ i, bytesOK (rngTree i))
    (hid : bytesOK rngIdRoot) (hl : bytesOK rngLeft) (hr : bytesOK rngRight)
    (hsh : bytesOK rngShimmy) :
    GlobalSecrets.deserialize (GlobalSecrets.serialize (GlobalSecrets.generate channels
      keypair rngChannel rngTree rngIdRoot rngLeft rngRight rngShimmy)) =
      GlobalSecrets.generate channels keypair rngChannel rngTree rngIdRoot rngLeft
        rngRight rngShimmy :=
  deserialize_serialize _
    (generate_bytesOK channels keypair rngChannel rngTree rngIdRoot rngLeft rngRight
      rngShimmy hkp1 hkp2 hC hT hid hl hr hsh)

/-- Witness for C7 on channels [1, 2] with all-zero draws. -/
theorem claim_C7_roundtrip_witness :
    bytesOK (List.replicate 64 0) ∧
    GlobalSecrets.deserialize (GlobalSecrets.serialize (GlobalSecrets.generate [1, 2]
      (List.replicate 64 0, List.replicate 64 0) (fun _ => List.replicate 32 0)
      (fun _ => List.replicate 16 0) (List.replicate 32 0) (List.replicate 32 0)
      (List.replicate 32 0) (List.replicate 32 0))) =
      GlobalSecrets.generate [1, 2] (List.replicate 64 0, List.replicate 64 0)
        (fun _ => List.replicate 32 0) (fun _ => List.replicate 16 0)
        (List.replicate 32 0) (List.replicate 32 0) (List.replicate 32 0)
        (List.replicate 32 0) :=
  ⟨bytesOK_replicate 64 0 (by norm_num),
    claim_C7_roundtrip [1, 2] (List.replicate 64 0, List.replicate 64 0)
      (fun _ => List.replicate 32 0) (fun _ => List.replicate 16 0)
      (List.replicate 32 0) (List.replicate 32 0) (List.replicate 32 0)
      (List.replicate 32 0)
      (bytesOK_replicate 64 0 (by norm_num)) (bytesOK_replicate 64 0 (by norm_num))
      (fun _ => bytesOK_replicate 32 0 (by norm_num))
      (fun _ => bytesOK_replicate 16 0 (by norm_num))
      (bytesOK_replicate 32 0 (by norm_num)) (bytesOK_replicate 32 0 (by norm_num))
      (bytesOK_replicate 32 0 (by norm_num)) (bytesOK_replicate 32 0 (by norm_num))⟩

/-- C8: generate produces identical key sets for channel_keys and
tree_root_keys, namely the input channels deduplicated by first
occurrence with channel 0 appended, always containing 0; the key sets
are unchanged by serialize followed by deserialize. -/
theorem claim_C8_key_sets (channels : List Nat) (keypair : List Nat × List Nat)
    (rngChannel rngTree : Nat → List Nat)
    (rngIdRoot rngLeft rngRight rngShimmy : List Nat) :
    KeySetsOK channels keypair rngChannel rngTree rngIdRoot rngLeft rngRight
      rngShimmy := by
  unfold KeySetsOK
  intro s
  have h1 : dictKeys s.channel_keys = dedupFirst (channels ++ [0]) :=
    dictKeys_dictComp rngChannel (channels ++ [0]) 0 []
  have h2 : dictKeys s.tree_root_keys = dedupFirst (channels ++ [0]) :=
    dictKeys_dictComp rngTree (channels ++ [0]) 0 []
  refine ⟨h1.trans h2.symm, h1, ?_, ?_, ?_⟩
  · rw [h1]
    exact mem_dedupFirstAux (channels ++ [0]) [] 0 (Or.inl (by simp))
  · exact roundtrip_keys s.channel_keys
  · exact roundtrip_keys s.tree_root_keys

/-- C9: encrypt_symmetric returns the 16-byte MAC, then the 24-byte
nonce, then the ciphertext of the plaintext's length: MAC first, and
the output is exactly 40 bytes longer than the plaintext. -/
theorem claim_C9_encrypt_layout {m : Monocypher} (hm : m.WF) (nonce pt key : List Nat)
    (hk : key.length = 32) (hn : nonce.length = 24) :
    ∃ c, encrypt_symmetric m nonce pt key = some c ∧
      c = (m.lock key nonce pt).1 ++ nonce ++ (m.lock key nonce pt).2 ∧
      c.length = pt.length + 40 ∧
      c.take 16 = (m.lock key nonce pt).1 ∧
      (c.drop 16).take 24 = nonce ∧
      c.drop 40 = (m.lock key nonce pt).2 := by
  have h1 := (hm.2.1 key nonce pt).1
  have h2 := (hm.2.1 key nonce pt).2
  refine ⟨_, encrypt_symmetric_eq hm hk hn, rfl, ?_, ?_, ?_, ?_⟩
  · simp [h1, h2, hn]
    omega
  · rw [List.append_assoc]
    exact take_append_exact h1
  · rw [List.append_assoc, drop_append_exact h1]
    exact take_append_exact hn
  · exact drop_append_exact (by simp [h1, hn])

/-- Witness for C9 on a 3-byte plaintext. -/
theorem claim_C9_encrypt_layout_witness :
    ((List.replicate 32 0 : List Nat).length = 32 ∧
      (List.replicate 24 5 : List Nat).length = 24) ∧
    (∃ c, encrypt_symmetric zeroCrypto (List.replicate 24 5) [1, 2, 3]
        (List.replicate 32 0) = some c ∧
      c = (zeroCrypto.lock (List.replicate 32 0) (List.replicate 24 5) [1, 2, 3]).1 ++
        List.replicate 24 5 ++
        (zeroCrypto.lock (List.replicate 32 0) (List.replicate 24 5) [1, 2, 3]).2 ∧
      c.length = [1, 2, 3].length + 40 ∧
      c.take 16 = (zeroCrypto.lock (List.replicate 32 0) (List.replicate 24 5) [1, 2, 3]).1 ∧
      (c.drop 16).take 24 = List.replicate 24 5 ∧
      c.drop 40 = (zeroCrypto.lock (List.replicate 32 0) (List.replicate 24 5) [1, 2, 3]).2) :=
  ⟨⟨rfl, rfl⟩,
    claim_C9_encrypt_layout zeroCrypto_wf (List.replicate 24 5) [1, 2, 3]
      (List.replicate 32 0) rfl rfl⟩

/-- C10: the embeddable subscription is deterministic and independent
of the device id: the definition never reads device_id and draws no
randomness, so any two device ids give the same bytes, and for a valid
input the output is a 2080-byte blob. -/
theorem claim_C10_embeddable_device_independent {m : Monocypher} (hm : m.WF)
    (s : GlobalSecrets) {kch root : List Nat} {d1 d2 start endTs ch : Nat}
    (hkch : dictGet s.channel_keys ch = some kch)
    (hroot : dictGet s.tree_root_keys ch = some root) (hrl : root.length = 16)
    (hl : s.left_tree_key.length = 32) (hr : s.right_tree_key.length = 32)
    (hse : start ≤ endTs) (hend : endTs < 2 ^ 64) (hch : ch < 2 ^ 32) :
    gen_embeddable_subscription m s d1 start endTs ch =
      gen_embeddable_subscription m s d2 start endTs ch ∧
    ∃ out, gen_embeddable_subscription m s d1 start endTs ch = some out ∧
      out.length = 2080 := by
  refine ⟨rfl, ?_⟩
  obtain ⟨l, out, _, _, hemb, hlen⟩ := gen_embeddable_ok hm s hkch hroot hrl hl hr hse hend hch
  exact ⟨out, hemb, hlen⟩

/-- Witness for C10 with device ids 0 and 0xDEADBEEF. -/
theorem claim_C10_embeddable_device_independent_witness :
    ((100 : Nat) ≤ 200 ∧ (200 : Nat) < 2 ^ 64) ∧
    (gen_embeddable_subscription zeroCrypto sampleSecrets 0 100 200 1 =
      gen_embeddable_subscription zeroCrypto sampleSecrets 0xDEADBEEF 100 200 1 ∧
    ∃ out, gen_embeddable_subscription zeroCrypto sampleSecrets 0 100 200 1 = some out ∧
      out.length = 2080) :=
  ⟨⟨by norm_num, by norm_num⟩,
    claim_C10_embeddable_device_independent zeroCrypto_wf sampleSecrets rfl rfl rfl rfl
      rfl (by norm_num) (by norm_num) (by norm_num)⟩
